import Mathlib

/-!
# Verification of `scripts/scriptutils/part_retrieval.py`

A shallow embedding of the inventory-reconciliation and identity-rewriting
engine of the iGEM distribution package tooling, together with theorems about
its behaviour.

Python strings are modelled as `List Char` where character-level operations
matter (prefix stripping, character replacement, sanitization), and as Lean
`String` where only identity comparison is needed.  Python dictionaries are
modelled as association lists with in-place update semantics (`updMap`), which
preserves insertion order exactly as CPython dictionaries do.
-/

/-- Convert a Lean string literal to the character-list model of Python `str`. -/
def pys (s : String) : List Char := s.data

/-- Python `str.removeprefix(p)`: drop `p` when it is a prefix, else unchanged. -/
def pyRemovePfx (p s : List Char) : List Char :=
  if p.isPrefixOf s then s.drop p.length else s

/-- Python `s.replace(a, b)` for single characters: replace every occurrence. -/
def pyReplaceChar (a b : Char) (s : List Char) : List Char :=
  s.map (fun c => if c = a then b else c)

/-- `NCBI_PREFIX = 'https://www.ncbi.nlm.nih.gov/nuccore/'` from the source. -/
def NCBI_PFX : List Char := pys "https://www.ncbi.nlm.nih.gov/nuccore/"

/-- `iGEM_SOURCE_PREFIX = 'http://parts.igem.org/'` from the source. -/
def iGEM_SOURCE_PFX : List Char := pys "http://parts.igem.org/"

/-- Modelled from the spec: the display-id sanitizer (`string_to_display_id` of
the external `sbol_utilities` library, an out-of-repository collaborator).  Per
character: space, dash and dot are replaced by underscore; alphanumerics and
underscore are kept; any other character is replaced by its `0x...` hex escape.
Characters free of path-incompatibility pass through unchanged. -/
def sanitizeChar (c : Char) : List Char :=
  let c2 := if c = ' ' ∨ c = '-' ∨ c = '.' then '_' else c
  if c2.isAlphanum ∨ c2 = '_' then [c2]
  else pys "0x" ++ Nat.toDigits 16 c2.toNat

/-- Modelled from the spec: `string_to_display_id` joins the sanitized
characters and, if the result starts with a digit, prepends an underscore.
(The Python raises `IndexError` on the empty string; the model returns `[]`,
a case no claim exercises.) -/
def string_to_display_id (name : List Char) : List Char :=
  let d := (name.map sanitizeChar).flatten
  match d with
  | [] => []
  | c :: _ => if c.isDigit then '_' :: d else d

/-- `sbol_uri_to_accession(uri, prefix)`: strip the prefix, then turn every
underscore into a dot. -/
def sbol_uri_to_accession (uri : List Char) (pfx : List Char) : List Char :=
  pyReplaceChar '_' '.' (pyRemovePfx pfx uri)

/-- `accession_to_sbol_uri(accession, prefix)`: normalize the prefix to end in
`'/'`, then append the sanitized accession. -/
def accession_to_sbol_uri (accession : List Char) (pfx : List Char) : List Char :=
  (if pfx.getLast? = some '/' then pfx else pfx ++ ['/']) ++ string_to_display_id accession

/-- The character action of the sanitizer on dot-or-alphanumeric input. -/
def dotToUnderscore (c : Char) : Char := if c = '.' then '_' else c

theorem sanitizeChar_alnum {c : Char} (h : c.isAlphanum = true) : sanitizeChar c = [c] := by
  have h1 : ¬ (c = ' ' ∨ c = '-' ∨ c = '.') := by
    rintro (rfl | rfl | rfl) <;> exact absurd h (by decide)
  simp [sanitizeChar, h1, h]

theorem sanitizeChar_dot : sanitizeChar '.' = ['_'] := by decide

theorem flatten_sanitize {a : List Char} (h : ∀ c ∈ a, c.isAlphanum = true ∨ c = '.') :
    (a.map sanitizeChar).flatten = a.map dotToUnderscore := by
  induction a with
  | nil => rfl
  | cons c a ih =>
    have hc := h c (List.mem_cons_self c a)
    have ha : ∀ x ∈ a, x.isAlphanum = true ∨ x = '.' :=
      fun x hx => h x (List.mem_cons_of_mem c hx)
    rcases hc with hc | rfl
    · have hdu : dotToUnderscore c = c := by
        unfold dotToUnderscore
        rw [if_neg]
        rintro rfl
        exact absurd hc (by decide)
      simp [sanitizeChar_alnum hc, ih ha, hdu]
    · simp [sanitizeChar_dot, ih ha, dotToUnderscore]

theorem display_id_alnumdot {a : List Char} (ha : a ≠ [])
    (h : ∀ c ∈ a, c.isAlphanum = true ∨ c = '.')
    (hd : ∀ c, a.head? = some c → c.isDigit = false) :
    string_to_display_id a = a.map dotToUnderscore := by
  unfold string_to_display_id
  rw [flatten_sanitize h]
  cases a with
  | nil => exact absurd rfl ha
  | cons c a =>
    have hnd : (dotToUnderscore c).isDigit = false := by
      by_cases h' : c = '.'
      · subst h'; decide
      · unfold dotToUnderscore
        rw [if_neg h']
        exact hd c rfl
    simp [hnd]

theorem replace_dotToUnderscore {a : List Char}
    (h : ∀ c ∈ a, c.isAlphanum = true ∨ c = '.') :
    pyReplaceChar '_' '.' (a.map dotToUnderscore) = a := by
  induction a with
  | nil => rfl
  | cons c a ih =>
    have hc := h c (List.mem_cons_self c a)
    have ha : ∀ x ∈ a, x.isAlphanum = true ∨ x = '.' :=
      fun x hx => h x (List.mem_cons_of_mem c hx)
    have hstep : (if dotToUnderscore c = '_' then '.' else dotToUnderscore c) = c := by
      rcases hc with hc | rfl
      · have h1 : dotToUnderscore c = c := by
          unfold dotToUnderscore
          rw [if_neg]
          rintro rfl
          exact absurd hc (by decide)
        rw [h1, if_neg]
        rintro rfl
        exact absurd hc (by decide)
      · decide
    simpa [pyReplaceChar, hstep] using ih ha

/-- C3 counterexample: the encode/decode round trip fails (i) for the
path-compatible, sanitizer-invariant accession `NC_0001` (its underscore comes
back as a dot), (ii) for a prefix that does not end in `/` (only encoding
normalizes the separator, decoding does not), and (iii) for an accession with
a leading digit (the sanitizer prepends an underscore). -/
theorem accession_roundtrip_cex :
    (sbol_uri_to_accession (accession_to_sbol_uri (pys "NC_0001") NCBI_PFX) NCBI_PFX
        = pys "NC.0001" ∧ pys "NC.0001" ≠ pys "NC_0001")
    ∧ (sbol_uri_to_accession (accession_to_sbol_uri (pys "AB") (pys "https://x")) (pys "https://x")
        = pys "/AB" ∧ pys "/AB" ≠ pys "AB")
    ∧ (sbol_uri_to_accession (accession_to_sbol_uri (pys "1A") NCBI_PFX) NCBI_PFX
        = pys ".1A" ∧ pys ".1A" ≠ pys "1A") := by decide

/-- C3 (amended): for every nonempty accession made of alphanumerics and dots
whose first character is not a digit, and every prefix ending in the `/`
separator (in particular the default NCBI nucleotide prefix), converting the
accession to an SBOL URI and back yields the original accession. -/
theorem accession_roundtrip_amended (a p : List Char) (ha : a ≠ [])
    (hchars : ∀ c ∈ a, c.isAlphanum = true ∨ c = '.')
    (hd : ∀ c, a.head? = some c → c.isDigit = false)
    (hp : p.getLast? = some '/') :
    sbol_uri_to_accession (accession_to_sbol_uri a p) p = a := by
  unfold sbol_uri_to_accession accession_to_sbol_uri pyRemovePfx
  rw [if_pos hp, display_id_alnumdot ha hchars hd,
    if_pos (by rw [List.isPrefixOf_iff_prefix]; exact List.prefix_append _ _),
    List.drop_left]
  exact replace_dotToUnderscore hchars

/-- Witness for C3 (amended) at the concrete accession `AB1.1` and the default
NCBI nucleotide prefix. -/
theorem accession_roundtrip_amended_witness :
    sbol_uri_to_accession (accession_to_sbol_uri (pys "AB1.1") NCBI_PFX) NCBI_PFX = pys "AB1.1" :=
  accession_roundtrip_amended (pys "AB1.1") NCBI_PFX (by decide) (by decide) (by decide) (by decide)

/-- A CPython `dict` as an association list: assignment `m[k] = v` updates the
entry in place when the key is present (keeping insertion order) and appends a
new entry otherwise. -/
def updMap {V : Type} (m : List (String × V)) (k : String) (v : V) : List (String × V) :=
  if ∃ e ∈ m, e.1 = k then
    m.map (fun kv => if kv.1 = k then (k, v) else kv)
  else m ++ [(k, v)]

/-- Python `k in dict` for the association-list dict model. -/
def hasKey {V : Type} (m : List (String × V)) (k : String) : Prop :=
  ∃ e ∈ m, e.1 = k

instance {V : Type} (m : List (String × V)) (k : String) : Decidable (hasKey m k) :=
  inferInstanceAs (Decidable (∃ e ∈ m, e.1 = k))

/-- Python `dict[k]` (as an `Option`) for the association-list dict model. -/
def mapLookup {V : Type} (m : List (String × V)) (k : String) : Option V :=
  match m with
  | [] => none
  | kv :: m' => if kv.1 = k then some kv.2 else mapLookup m' k

theorem mapLookup_updMap_self {V : Type} (m : List (String × V)) (k : String) (v : V) :
    mapLookup (updMap m k v) k = some v := by
  unfold updMap
  split
  · rename_i h
    induction m with
    | nil => simp at h
    | cons kv m ih =>
      by_cases hk : kv.1 = k
      · simp [mapLookup, hk]
      · obtain ⟨e, he, hek⟩ := h
        rcases List.mem_cons.mp he with rfl | he'
        · exact absurd hek hk
        · simp only [List.map_cons, if_neg hk, mapLookup, if_neg hk]
          exact ih ⟨e, he', hek⟩
  · induction m with
    | nil => simp [mapLookup]
    | cons kv m ih =>
      rename_i h
      have hk : ¬ kv.1 = k := fun hkk => h ⟨kv, List.mem_cons_self kv m, hkk⟩
      simp only [List.cons_append, mapLookup, if_neg hk]
      exact ih (fun ⟨e, he, hek⟩ => h ⟨e, List.mem_cons_of_mem kv he, hek⟩)

theorem mapLookup_map_upd {V : Type} (m : List (String × V)) (k k' : String) (v : V)
    (hne : k' ≠ k) :
    mapLookup (m.map (fun kv => if kv.1 = k then (k, v) else kv)) k' = mapLookup m k' := by
  induction m with
  | nil => rfl
  | cons kv m ih =>
    by_cases hk : kv.1 = k
    · simp only [List.map_cons, if_pos hk, mapLookup,
        if_neg (fun hh : k = k' => hne hh.symm),
        if_neg (fun hh : kv.1 = k' => hne (hk.symm.trans hh).symm)]
      exact ih
    · simp only [List.map_cons, if_neg hk, mapLookup]
      split
      · rfl
      · exact ih

theorem mapLookup_append_single {V : Type} (m : List (String × V)) (k k' : String) (v : V)
    (hne : k' ≠ k) : mapLookup (m ++ [(k, v)]) k' = mapLookup m k' := by
  induction m with
  | nil => simp [mapLookup, if_neg (fun hh : k = k' => hne hh.symm)]
  | cons kv m ih =>
    simp only [List.cons_append, mapLookup]
    split
    · rfl
    · exact ih

theorem mapLookup_updMap_ne {V : Type} (m : List (String × V)) (k k' : String) (v : V)
    (hne : k' ≠ k) : mapLookup (updMap m k v) k' = mapLookup m k' := by
  unfold updMap
  split
  · exact mapLookup_map_upd m k k' v hne
  · exact mapLookup_append_single m k k' v hne

theorem mem_updMap {V : Type} {m : List (String × V)} {k : String} {v : V}
    {e : String × V} (he : e ∈ updMap m k v) : e ∈ m ∨ e = (k, v) := by
  unfold updMap at he
  split at he
  · obtain ⟨kv, hkv, hfe⟩ := List.mem_map.mp he
    by_cases hk : kv.1 = k
    · right
      rw [if_pos hk] at hfe
      exact hfe.symm
    · left
      rw [if_neg hk] at hfe
      exact hfe ▸ hkv
  · rcases List.mem_append.mp he with h | h
    · exact Or.inl h
    · exact Or.inr (List.mem_singleton.mp h)

theorem updMap_keeps_keys {V : Type} {m : List (String × V)} (k : String) (v : V)
    {e : String × V} (he : e ∈ m) : ∃ e' ∈ updMap m k v, e'.1 = e.1 := by
  unfold updMap
  split
  · refine ⟨if e.1 = k then (k, v) else e, List.mem_map.mpr ⟨e, he, rfl⟩, ?_⟩
    split
    · rename_i hk
      exact hk.symm
    · rfl
  · exact ⟨e, List.mem_append.mpr (Or.inl he), rfl⟩

theorem updMap_has_key {V : Type} (m : List (String × V)) (k : String) (v : V) :
    ∃ e' ∈ updMap m k v, e'.1 = k := by
  unfold updMap
  split
  · rename_i h
    obtain ⟨e, he, hek⟩ := h
    exact ⟨(k, v), List.mem_map.mpr ⟨e, he, by rw [if_pos hek]⟩, rfl⟩
  · exact ⟨(k, v), List.mem_append.mpr (Or.inr (List.mem_singleton.mpr rfl)), rfl⟩

theorem hasKey_updMap_ne {V : Type} (m : List (String × V)) (k k' : String) (v : V)
    (hne : k' ≠ k) : hasKey (updMap m k v) k' ↔ hasKey m k' := by
  constructor
  · rintro ⟨e, he, hek⟩
    rcases mem_updMap he with h | rfl
    · exact ⟨e, h, hek⟩
    · exact absurd hek.symm hne
  · rintro ⟨e, he, hek⟩
    obtain ⟨e', he', hkk⟩ := updMap_keeps_keys k v he
    exact ⟨e', he', hkk.trans hek⟩

/-- `PackageInventory` from the source: a set of tracked files (modelled by
numeric file ids), the `locations` dict mapping a canonical URI to the file
providing it, and the `aliases` dict mapping every URI and alias to a
canonical URI. -/
structure PackageInventory where
  files : List Nat
  locations : List (String × Nat)
  aliases : List (String × String)
deriving DecidableEq

def PackageInventory.empty : PackageInventory := ⟨[], [], []⟩

/-- The key set `keys = set(aliases); keys.add(uri)` iterated over by
`PackageInventory.add`, modelled as a duplicate-free list. -/
def addAliasKeys (aliasArgs : List String) (uri : String) : List String :=
  (aliasArgs ++ [uri]).dedup

/-- One iteration of the key loop in `PackageInventory.add`: warn if the key
is already present, then assign `aliases[key] = uri` unconditionally.  The
second component accumulates the keys warned about. -/
def aliasStep (uri : String) (st : List (String × String) × List String) (k : String) :
    List (String × String) × List String :=
  (updMap st.1 k uri, if hasKey st.1 k then st.2 ++ [k] else st.2)

/-- `PackageInventory.add(import_file, uri, *aliases)`: track the file, set
`locations[uri] = import_file`, then run the key loop over all aliases plus
the URI itself.  Returns the updated inventory and the warned-about keys. -/
def PackageInventory.add (inv : PackageInventory) (f : Nat) (uri : String)
    (aliasArgs : List String) : PackageInventory × List String :=
  let files := if f ∈ inv.files then inv.files else inv.files ++ [f]
  let locations := updMap inv.locations uri f
  let res := (addAliasKeys aliasArgs uri).foldl (aliasStep uri) (inv.aliases, [])
  (⟨files, locations, res.1⟩, res.2)

theorem aliasFold_lookup_not_mem (uri : String) (ks : List String)
    (st : List (String × String) × List String) (k : String) (hk : k ∉ ks) :
    mapLookup (ks.foldl (aliasStep uri) st).1 k = mapLookup st.1 k := by
  induction ks generalizing st with
  | nil => rfl
  | cons k0 ks ih =>
    have hne : k ≠ k0 := fun h => hk (h ▸ List.mem_cons_self k0 ks)
    rw [List.foldl_cons, ih _ (fun h => hk (List.mem_cons_of_mem k0 h))]
    exact mapLookup_updMap_ne st.1 k0 k uri hne

theorem aliasFold_lookup_mem (uri : String) (ks : List String)
    (st : List (String × String) × List String) (k : String)
    (hnd : ks.Nodup) (hk : k ∈ ks) :
    mapLookup (ks.foldl (aliasStep uri) st).1 k = some uri := by
  induction ks generalizing st with
  | nil => exact absurd hk (List.not_mem_nil k)
  | cons k0 ks ih =>
    rcases List.mem_cons.mp hk with rfl | hk'
    · rw [List.foldl_cons,
        aliasFold_lookup_not_mem uri ks _ k (List.nodup_cons.mp hnd).1]
      exact mapLookup_updMap_self st.1 k uri
    · rw [List.foldl_cons]
      exact ih _ (List.nodup_cons.mp hnd).2 hk'

theorem aliasFold_values (uri : String) (ks : List String)
    (st : List (String × String) × List String) {e : String × String}
    (he : e ∈ (ks.foldl (aliasStep uri) st).1) : e ∈ st.1 ∨ e.2 = uri := by
  induction ks generalizing st with
  | nil => exact Or.inl he
  | cons k0 ks ih =>
    rw [List.foldl_cons] at he
    rcases ih _ he with h | h
    · rcases mem_updMap h with h' | rfl
      · exact Or.inl h'
      · exact Or.inr rfl
    · exact Or.inr h

theorem aliasFold_warns (uri : String) (ks : List String)
    (al : List (String × String)) (ws : List String) (hnd : ks.Nodup) :
    (ks.foldl (aliasStep uri) (al, ws)).2
      = ws ++ ks.filter (fun k => decide (hasKey al k)) := by
  induction ks generalizing al ws with
  | nil => simp
  | cons k0 ks ih =>
    have hnd' := List.nodup_cons.mp hnd
    rw [List.foldl_cons]
    show (ks.foldl (aliasStep uri)
      (updMap al k0 uri, if hasKey al k0 then ws ++ [k0] else ws)).2 = _
    rw [ih _ _ hnd'.2]
    have hcongr : ks.filter (fun k => decide (hasKey (updMap al k0 uri) k))
        = ks.filter (fun k => decide (hasKey al k)) := by
      apply List.filter_congr
      intro k hkks
      have hne : k ≠ k0 := fun h => hnd'.1 (h ▸ hkks)
      exact decide_eq_decide.mpr (hasKey_updMap_ne al k0 k uri hne)
    rw [hcongr]
    by_cases h0 : hasKey al k0
    · rw [if_pos h0, List.filter_cons_of_pos (by simpa using h0)]
      simp
    · rw [if_neg h0, List.filter_cons_of_neg (by simpa using h0)]

/-- C4 counterexample: adding alias `a` for canonical URI `u1` and then alias
`a` for canonical URI `u2` leaves `a` resolving to `u2`, the most recent
write — not to the first-written `u1` — although the duplicate is warned
about.  The assignment `self.aliases[key] = uri` is unconditional. -/
theorem inventory_duplicate_alias_cex :
    mapLookup (((PackageInventory.empty.add 1 "u1" ["a"]).1.add 2 "u2" ["a"]).1.aliases) "a"
        = some "u2"
    ∧ ((PackageInventory.empty.add 1 "u1" ["a"]).1.add 2 "u2" ["a"]).2 = ["a"]
    ∧ some "u2" ≠ some ("u1" : String) := by decide

/-- C4 (amended): when an alias key already present in the alias map is added
again, a warning is logged for it, but the new mapping overwrites the old one:
after `add`, every key of the add (every alias argument and the URI itself)
resolves to the newly added canonical URI — last write per alias wins — and
the warned keys are exactly those that were already present. -/
theorem inventory_add_last_write_wins (inv : PackageInventory) (f : Nat) (uri : String)
    (aliasArgs : List String) (k : String) (hk : k ∈ addAliasKeys aliasArgs uri) :
    mapLookup ((inv.add f uri aliasArgs).1.aliases) k = some uri
    ∧ (inv.add f uri aliasArgs).2
        = (addAliasKeys aliasArgs uri).filter (fun k' => decide (hasKey inv.aliases k')) := by
  constructor
  · exact aliasFold_lookup_mem uri (addAliasKeys aliasArgs uri) (inv.aliases, []) k
      (List.nodup_dedup _) hk
  · have h := aliasFold_warns uri (addAliasKeys aliasArgs uri) inv.aliases []
      (List.nodup_dedup _)
    simpa using h

/-- Witness for C4 (amended): a concrete add whose alias key was already
present resolves to the new URI and is warned about. -/
theorem inventory_add_last_write_wins_witness :
    mapLookup ((((PackageInventory.empty.add 1 "u1" ["a"]).1).add 2 "u2" ["a"]).1.aliases) "a"
        = some "u2"
    ∧ (((PackageInventory.empty.add 1 "u1" ["a"]).1).add 2 "u2" ["a"]).2
        = (addAliasKeys ["a"] "u2").filter
            (fun k' => decide (hasKey (PackageInventory.empty.add 1 "u1" ["a"]).1.aliases k')) :=
  inventory_add_last_write_wins (PackageInventory.empty.add 1 "u1" ["a"]).1 2 "u2" ["a"] "a"
    (by decide)

/-- The C9 invariant: every value of the alias map is a key of the locations
map. -/
def PackageInventory.aliasClosed (inv : PackageInventory) : Prop :=
  ∀ e ∈ inv.aliases, ∃ l ∈ inv.locations, l.1 = e.2

theorem add_preserves_aliasClosed (inv : PackageInventory) (f : Nat) (uri : String)
    (aliasArgs : List String) (h : inv.aliasClosed) :
    (inv.add f uri aliasArgs).1.aliasClosed := by
  intro e he
  rcases aliasFold_values uri (addAliasKeys aliasArgs uri) (inv.aliases, []) he with h1 | h2
  · obtain ⟨l, hl, hlk⟩ := h e h1
    obtain ⟨l', hl', hk'⟩ := updMap_keeps_keys uri f hl
    exact ⟨l', hl', hk'.trans hlk⟩
  · obtain ⟨l', hl', hk'⟩ := updMap_has_key inv.locations uri f
    exact ⟨l', hl', hk'.trans h2.symm⟩

/-- Run a sequence of `add` operations (file id, canonical URI, alias
arguments) on an initially empty inventory, as `package_parts_inventory`
does. -/
def applyOps (ops : List (Nat × String × List String)) : PackageInventory :=
  ops.foldl (fun inv op => (inv.add op.1 op.2.1 op.2.2).1) PackageInventory.empty

theorem foldl_adds_aliasClosed (ops : List (Nat × String × List String)) :
    ∀ inv : PackageInventory, inv.aliasClosed →
      (ops.foldl (fun inv op => (inv.add op.1 op.2.1 op.2.2).1) inv).aliasClosed := by
  induction ops with
  | nil => exact fun inv h => h
  | cons op ops ih =>
    intro inv h
    rw [List.foldl_cons]
    exact ih _ (add_preserves_aliasClosed inv op.1 op.2.1 op.2.2 h)

/-- C9: for every `PackageInventory` produced by any sequence of `add`
operations, the alias map is closed over the location map's keys: every value
stored in `aliases` is a key present in `locations`. -/
theorem inventory_alias_map_closed (ops : List (Nat × String × List String)) :
    (applyOps ops).aliasClosed :=
  foldl_adds_aliasClosed ops PackageInventory.empty (fun e he => absurd he (List.not_mem_nil e))

/-- Witness for C9 at a concrete operation sequence. -/
theorem inventory_alias_map_closed_witness :
    (applyOps [(1, "u1", ["a", "b"]), (2, "u2", ["a"])]).aliasClosed :=
  inventory_alias_map_closed [(1, "u1", ["a", "b"]), (2, "u2", ["a"])]

/-- A member of the package specification's `BasicParts` collection: an
identity plus its (possibly empty) list of attached sequences. -/
structure SpecPart where
  identity : String
  sequences : List String
deriving DecidableEq

/-- `package_no_sequence_ids`: identities of required parts without attached
sequence data. -/
def requiredNoSeqIds (parts : List SpecPart) : Finset String :=
  ((parts.filter (fun p => p.sequences.isEmpty)).map SpecPart.identity).toFinset

/-- `inventory_part_ids_and_aliases`: the key set of the inventory's alias
map. -/
def aliasKeySet (inv : PackageInventory) : Finset String :=
  (inv.aliases.map Prod.fst).toFinset

/-- `missing_sequences = package_no_sequence_ids - inventory_part_ids_and_aliases`. -/
def missingSequences (parts : List SpecPart) (inv : PackageInventory) : Finset String :=
  requiredNoSeqIds parts \ aliasKeySet inv

/-- `import_parts`: compute the missing set; if empty return `[]` without
dispatching, otherwise sort it and hand it to the source router
(`retrieve_parts`, abstracted as `router`), returning what was retrieved.
The second component instruments the dispatches actually performed. -/
def import_parts (parts : List SpecPart) (inv : PackageInventory)
    (router : List String → List String) : List String × List (List String) :=
  let missing := missingSequences parts inv
  if missing = ∅ then ([], [])
  else
    let download_list := missing.sort (· ≤ ·)
    (router download_list, [download_list])

/-- C1: the missing set is exactly the set of identities of sequence-less
required parts that are not keys of the inventory's alias map; when it is
empty, `import_parts` returns `[]` and performs no dispatch; otherwise it
dispatches the sorted missing set to the source router exactly once and
returns whatever the router retrieved, raising nothing on a shortfall. -/
theorem import_parts_spec (parts : List SpecPart) (inv : PackageInventory)
    (router : List String → List String) :
    (∀ i : String, i ∈ missingSequences parts inv ↔
        ((∃ p ∈ parts, p.identity = i ∧ p.sequences = []) ∧ ¬ hasKey inv.aliases i))
    ∧ (missingSequences parts inv = ∅ → import_parts parts inv router = ([], []))
    ∧ (missingSequences parts inv ≠ ∅ →
        import_parts parts inv router
          = (router ((missingSequences parts inv).sort (· ≤ ·)),
             [(missingSequences parts inv).sort (· ≤ ·)])) := by
  refine ⟨?_, ?_, ?_⟩
  · intro i
    simp only [missingSequences, Finset.mem_sdiff, requiredNoSeqIds, aliasKeySet,
      List.mem_toFinset, List.mem_map, List.mem_filter, List.isEmpty_iff, hasKey]
    constructor
    · rintro ⟨⟨p, ⟨hp, hseq⟩, hid⟩, hno⟩
      exact ⟨⟨p, hp, hid, hseq⟩, fun ⟨e, he, hek⟩ => hno ⟨e, he, hek⟩⟩
    · rintro ⟨⟨p, hp, hid, hseq⟩, hno⟩
      exact ⟨⟨p, ⟨hp, hseq⟩, hid⟩, fun ⟨e, he, hek⟩ => hno ⟨e, he, hek⟩⟩
  · intro h
    simp [import_parts, h]
  · intro h
    simp only [import_parts]
    rw [if_neg h]

/-- Witness for C1: a concrete package where part `A` has a sequence, part `B`
is satisfied through an inventory alias and part `C` is missing — and a
package with nothing missing, where no dispatch happens. -/
theorem import_parts_spec_witness :
    ("C" ∈ missingSequences [⟨"A", ["s"]⟩, ⟨"B", []⟩, ⟨"C", []⟩]
          (PackageInventory.empty.add 1 "B1" ["B"]).1 ↔
        ((∃ p ∈ [(⟨"A", ["s"]⟩ : SpecPart), ⟨"B", []⟩, ⟨"C", []⟩],
            p.identity = "C" ∧ p.sequences = [])
          ∧ ¬ hasKey (PackageInventory.empty.add 1 "B1" ["B"]).1.aliases "C"))
    ∧ import_parts [⟨"A", ["s"]⟩, ⟨"B", []⟩, ⟨"C", []⟩]
        (PackageInventory.empty.add 1 "B1" ["B"]).1 (fun l => l)
        = ((fun l : List String => l)
            ((missingSequences [⟨"A", ["s"]⟩, ⟨"B", []⟩, ⟨"C", []⟩]
              (PackageInventory.empty.add 1 "B1" ["B"]).1).sort (· ≤ ·)),
           [(missingSequences [⟨"A", ["s"]⟩, ⟨"B", []⟩, ⟨"C", []⟩]
              (PackageInventory.empty.add 1 "B1" ["B"]).1).sort (· ≤ ·)])
    ∧ import_parts [⟨"A", ["s"]⟩] PackageInventory.empty (fun l => l) = ([], []) :=
  ⟨(import_parts_spec _ _ (fun l => l)).1 "C",
   (import_parts_spec _ _ (fun l => l)).2.2 (by decide),
   (import_parts_spec _ _ (fun l => l)).2.1 (by decide)⟩

/-- The ordered prefix table of `source_list`: NCBI nuccore, the public iGEM
mirror on synbiohub.org, the iGEM registry, then any synbiohub host.  CPython
dicts iterate in insertion order, so the router tests prefixes in exactly this
order. -/
def source_list_pfxs : List (List Char) :=
  [NCBI_PFX,
   pys "https://synbiohub.org/public/igem/",
   pys "http://parts.igem.org/",
   pys "https://synbiohub"]

/-- Instrumented routing loop of `retrieve_parts`: for each prefix in table
order, the batch of still-unclaimed URIs matching it (`matches` in the
source); matched URIs are removed from the pool (`ids = [i for i in ids if i
not in matches]`) before the next prefix is tried. -/
def routeSteps : List (List Char) → List (List Char) → List (List Char × List (List Char))
  | [], _ => []
  | p :: ps, ids =>
    (p, ids.filter (fun x => p.isPrefixOf x)) ::
      routeSteps ps
        (ids.filter (fun x => !(decide (x ∈ ids.filter (fun y => p.isPrefixOf y)))))

/-- `retrieve_parts(ids, package)`: partition the URI pool by prefix in table
order, invoke the retriever only on nonempty batches, and concatenate the
successfully retrieved lists.  The retriever is abstracted as a function of
the prefix and its batch. -/
def retrieve_parts (retriever : List Char → List (List Char) → List (List Char)) :
    List (List Char) → List (List Char) → List (List Char)
  | [], _ => []
  | p :: ps, ids =>
    (if ids.filter (fun x => p.isPrefixOf x) = [] then []
     else retriever p (ids.filter (fun x => p.isPrefixOf x)))
      ++ retrieve_parts retriever ps
          (ids.filter (fun x => !(decide (x ∈ ids.filter (fun y => p.isPrefixOf y)))))

theorem routeSteps_batch_sub {ps ids : List (List Char)}
    {pm : List Char × List (List Char)} (hpm : pm ∈ routeSteps ps ids) :
    ∀ i ∈ pm.2, i ∈ ids := by
  induction ps generalizing ids with
  | nil => exact absurd hpm (List.not_mem_nil pm)
  | cons p ps ih =>
    simp only [routeSteps] at hpm
    rcases List.mem_cons.mp hpm with rfl | hpm'
    · exact fun i hi => (List.mem_filter.mp hi).1
    · exact fun i hi => (List.mem_filter.mp (ih hpm' i hi)).1

theorem routeSteps_pfx_mem {ps ids : List (List Char)}
    {pm : List Char × List (List Char)} (hpm : pm ∈ routeSteps ps ids) :
    pm.1 ∈ ps := by
  induction ps generalizing ids with
  | nil => exact absurd hpm (List.not_mem_nil pm)
  | cons p ps ih =>
    simp only [routeSteps] at hpm
    rcases List.mem_cons.mp hpm with rfl | hpm'
    · exact List.mem_cons_self _ _
    · exact List.mem_cons_of_mem p (ih hpm')

theorem mem_removed_pool {ids : List (List Char)} {p i : List Char} (hi : i ∈ ids) :
    i ∈ ids.filter (fun x => !(decide (x ∈ ids.filter (fun y => p.isPrefixOf y))))
      ↔ ¬ p.isPrefixOf i = true := by
  constructor
  · intro h
    intro hp
    have h2 := (List.mem_filter.mp h).2
    simp only [Bool.not_eq_eq_eq_not, Bool.not_true, decide_eq_false_iff_not] at h2
    exact h2 (List.mem_filter.mpr ⟨hi, hp⟩)
  · intro hp
    refine List.mem_filter.mpr ⟨hi, ?_⟩
    simp only [Bool.not_eq_eq_eq_not, Bool.not_true, decide_eq_false_iff_not]
    intro hmem
    exact hp (List.mem_filter.mp hmem).2

/-- The first prefix of the table that the URI starts with, if any. -/
def firstMatchPfx (i : List Char) : List (List Char) → Option (List Char)
  | [] => none
  | p :: ps => if p.isPrefixOf i then some p else firstMatchPfx i ps

theorem firstMatchPfx_isPfx {i : List Char} {ps : List (List Char)} {p : List Char}
    (h : firstMatchPfx i ps = some p) : p.isPrefixOf i = true := by
  induction ps with
  | nil => exact absurd h (by simp [firstMatchPfx])
  | cons q ps ih =>
    by_cases hq : q.isPrefixOf i
    · simp only [firstMatchPfx, if_pos hq] at h
      exact (Option.some.inj h) ▸ hq
    · simp only [firstMatchPfx, if_neg hq] at h
      exact ih h

theorem routeSteps_first_match {ps : List (List Char)} (hnd : ps.Nodup)
    {ids : List (List Char)} {i : List Char} (hi : i ∈ ids)
    {pm : List Char × List (List Char)} (hpm : pm ∈ routeSteps ps ids) :
    i ∈ pm.2 ↔ firstMatchPfx i ps = some pm.1 := by
  induction ps generalizing ids with
  | nil => exact absurd hpm (List.not_mem_nil pm)
  | cons p ps ih =>
    have hnd' := List.nodup_cons.mp hnd
    simp only [routeSteps] at hpm
    by_cases hp : p.isPrefixOf i
    · rcases List.mem_cons.mp hpm with rfl | hpm'
      · simp [firstMatchPfx, hp, List.mem_filter, hi]
      · have hnotpool : ¬ i ∈ ids.filter
            (fun x => !(decide (x ∈ ids.filter (fun y => p.isPrefixOf y)))) :=
          fun h => (mem_removed_pool hi).mp h hp
        constructor
        · intro hmem
          exact absurd (routeSteps_batch_sub hpm' i hmem) hnotpool
        · intro hfind
          simp only [firstMatchPfx, if_pos hp] at hfind
          have hppm : pm.1 = p := (Option.some.inj hfind).symm
          exact absurd (hppm ▸ routeSteps_pfx_mem hpm') hnd'.1
    · have hpool : i ∈ ids.filter
          (fun x => !(decide (x ∈ ids.filter (fun y => p.isPrefixOf y)))) :=
        (mem_removed_pool hi).mpr hp
      rcases List.mem_cons.mp hpm with rfl | hpm'
      · simp only [List.mem_filter, hi, true_and, firstMatchPfx, if_neg hp]
        constructor
        · intro h
          exact absurd h hp
        · intro h
          exact absurd (firstMatchPfx_isPfx h) hp
      · simp only [firstMatchPfx, if_neg hp]
        exact ih hnd'.2 hpool hpm'

theorem routeSteps_count_zero {ps ids : List (List Char)} {i : List Char}
    (hi : ¬ i ∈ ids) :
    (routeSteps ps ids).countP (fun pm => decide (i ∈ pm.2)) = 0 := by
  rw [List.countP_eq_zero]
  intro pm hpm
  simp only [decide_eq_true_eq]
  exact fun hmem => hi (routeSteps_batch_sub hpm i hmem)

theorem routeSteps_count_le_one (ps ids : List (List Char)) (i : List Char) :
    (routeSteps ps ids).countP (fun pm => decide (i ∈ pm.2)) ≤ 1 := by
  induction ps generalizing ids with
  | nil => simp [routeSteps]
  | cons p ps ih =>
    simp only [routeSteps, List.countP_cons]
    by_cases hi : i ∈ ids
    · by_cases hp : p.isPrefixOf i
      · have hnotpool : ¬ i ∈ ids.filter
            (fun x => !(decide (x ∈ ids.filter (fun y => p.isPrefixOf y)))) :=
          fun h => (mem_removed_pool hi).mp h hp
        rw [routeSteps_count_zero hnotpool]
        split <;> simp
      · have : (decide (i ∈ ids.filter (fun x => p.isPrefixOf x))) = false := by
          simp only [decide_eq_false_iff_not, List.mem_filter]
          exact fun h => hp h.2
        rw [this]
        simpa using ih _
    · have h0 : (decide (i ∈ ids.filter (fun x => p.isPrefixOf x))) = false := by
        simp only [decide_eq_false_iff_not, List.mem_filter]
        exact fun h => hi h.1
      have h1 : ¬ i ∈ ids.filter
          (fun x => !(decide (x ∈ ids.filter (fun y => p.isPrefixOf y)))) :=
        fun h => hi (List.mem_filter.mp h).1
      rw [h0, routeSteps_count_zero h1]
      simp

theorem retrieve_parts_eq_flatten (retriever : List Char → List (List Char) → List (List Char))
    (ps ids : List (List Char)) :
    retrieve_parts retriever ps ids
      = (((routeSteps ps ids).filter (fun pm => !(pm.2.isEmpty))).map
          (fun pm => retriever pm.1 pm.2)).flatten := by
  induction ps generalizing ids with
  | nil => rfl
  | cons p ps ih =>
    simp only [retrieve_parts, routeSteps]
    by_cases hm : ids.filter (fun x => p.isPrefixOf x) = []
    · rw [if_pos hm, List.filter_cons_of_neg (by simp [hm])]
      simp [ih]
    · rw [if_neg hm, List.filter_cons_of_pos (by simpa [List.isEmpty_iff] using hm)]
      simp [ih]

/-- C2: every URI in the pool belongs to the batch of a routing step if and
only if that step's prefix is the *first* prefix of the fixed table (NCBI
nuccore, public iGEM mirror, iGEM registry, generic synbiohub host, in that
order) that the URI starts with — so a URI matching several prefixes is
passed to exactly one retriever, a URI is never counted in more than one
batch, URIs matching no prefix are in no batch, and the return value is the
concatenation of the retriever results over the nonempty batches. -/
theorem retrieve_parts_routing (retriever : List Char → List (List Char) → List (List Char))
    (ids : List (List Char)) :
    (∀ i ∈ ids, ∀ pm ∈ routeSteps source_list_pfxs ids,
        (i ∈ pm.2 ↔ firstMatchPfx i source_list_pfxs = some pm.1))
    ∧ (∀ i : List Char,
        (routeSteps source_list_pfxs ids).countP (fun pm => decide (i ∈ pm.2)) ≤ 1)
    ∧ retrieve_parts retriever source_list_pfxs ids
        = (((routeSteps source_list_pfxs ids).filter (fun pm => !(pm.2.isEmpty))).map
            (fun pm => retriever pm.1 pm.2)).flatten :=
  ⟨fun _ hi _ hpm => routeSteps_first_match (by decide) hi hpm,
   fun i => routeSteps_count_le_one source_list_pfxs ids i,
   retrieve_parts_eq_flatten retriever source_list_pfxs ids⟩

/-- Witness for C2: a pool with one NCBI URI, one public-iGEM-mirror URI
(which also matches the generic synbiohub prefix) and one unroutable URI;
the mirror URI sits in the batch of the first matching prefix, each URI is in
at most one batch, and the echoing retriever returns the routed batches. -/
theorem retrieve_parts_routing_witness :
    (pys "https://synbiohub.org/public/igem/BBa_K" ∈
        (pys "https://synbiohub.org/public/igem/",
          [pys "https://synbiohub.org/public/igem/BBa_K"]).2
      ↔ firstMatchPfx (pys "https://synbiohub.org/public/igem/BBa_K") source_list_pfxs
          = some (pys "https://synbiohub.org/public/igem/"))
    ∧ (routeSteps source_list_pfxs
        [pys "https://www.ncbi.nlm.nih.gov/nuccore/AB1",
         pys "https://synbiohub.org/public/igem/BBa_K",
         pys "https://example.org/x"]).countP
          (fun pm => decide (pys "https://synbiohub.org/public/igem/BBa_K" ∈ pm.2)) ≤ 1
    ∧ retrieve_parts (fun _ m => m) source_list_pfxs
        [pys "https://www.ncbi.nlm.nih.gov/nuccore/AB1",
         pys "https://synbiohub.org/public/igem/BBa_K",
         pys "https://example.org/x"]
      = (((routeSteps source_list_pfxs
            [pys "https://www.ncbi.nlm.nih.gov/nuccore/AB1",
             pys "https://synbiohub.org/public/igem/BBa_K",
             pys "https://example.org/x"]).filter (fun pm => !(pm.2.isEmpty))).map
          (fun pm => pm.2)).flatten :=
  ⟨(retrieve_parts_routing (fun _ m => m)
      [pys "https://www.ncbi.nlm.nih.gov/nuccore/AB1",
       pys "https://synbiohub.org/public/igem/BBa_K",
       pys "https://example.org/x"]).1
      (pys "https://synbiohub.org/public/igem/BBa_K") (by decide)
      (pys "https://synbiohub.org/public/igem/",
        [pys "https://synbiohub.org/public/igem/BBa_K"]) (by decide),
   (retrieve_parts_routing (fun _ m => m)
      [pys "https://www.ncbi.nlm.nih.gov/nuccore/AB1",
       pys "https://synbiohub.org/public/igem/BBa_K",
       pys "https://example.org/x"]).2.1
      (pys "https://synbiohub.org/public/igem/BBa_K"),
   (retrieve_parts_routing (fun _ m => m)
      [pys "https://www.ncbi.nlm.nih.gov/nuccore/AB1",
       pys "https://synbiohub.org/public/igem/BBa_K",
       pys "https://example.org/x"]).2.2⟩

/-- The file-type tags accepted by `ImportFile` (the keys of `extensions`). -/
inductive FileType where
  | FASTA
  | GenBank
  | SBOL2
  | SBOL3
deriving DecidableEq

/-- The mutable state of an `ImportFile` relevant to document loading: its
file type and the `self.doc` field, initialized to `None` by the
constructor.  `D` abstracts the SBOL3 document representation. -/
structure ImportFileState (D : Type) where
  file_type : FileType
  doc : Option D
deriving DecidableEq

/-- `ImportFile.get_sbol3_doc`, with loading/conversion abstracted by `load`
(one in-memory document per file type).  Mirrors the source exactly: when
`self.doc` is set it is returned; otherwise each branch builds a *local*
`doc` and returns it — no branch ever assigns `self.doc`, so the state comes
back unchanged.  The final component counts the load/convert operations the
call performed (0 when served from `self.doc`, 1 otherwise). -/
def get_sbol3_doc {D : Type} (load : FileType → D) (f : ImportFileState D) :
    D × ImportFileState D × Nat :=
  match f.doc with
  | some d => (d, f, 0)
  | none => (load f.file_type, f, 1)

/-- C5 evaluation (code bug): construct an `ImportFile` and call
`get_sbol3_doc` twice.  After the first call `self.doc` is still `None`
(the assignment that the `if self.doc` guard anticipates never happens), so
the second call performs a full re-load instead of returning a cached
document: both calls count one load each. -/
theorem get_sbol3_doc_never_caches :
    ((get_sbol3_doc (fun _ => (0 : Nat)) ⟨FileType.SBOL3, none⟩).2.1.doc = none)
    ∧ ((get_sbol3_doc (fun _ => (0 : Nat)) ⟨FileType.SBOL3, none⟩).2.2 = 1)
    ∧ ((get_sbol3_doc (fun _ => (0 : Nat))
          (get_sbol3_doc (fun _ => (0 : Nat)) ⟨FileType.SBOL3, none⟩).2.1).2.2 = 1) :=
  ⟨rfl, rfl, rfl⟩

/-- An RDF statement of the document graph: subject, predicate, object. -/
structure Triple where
  subj : String
  pred : String
  obj : String
deriving DecidableEq

/-- One rewriting-plan entry applied to the graph: for every statement whose
object term equals `old`, add the statement with `new` substituted for the
object and remove the original (`g.add((s, p, new)); g.remove((s, p, o))`). -/
def substObj (old new : String) (g : List Triple) : List Triple :=
  g.map (fun t => if t.obj = old then Triple.mk t.subj t.pred new else t)

/-- The rewrite loop of `collate_package`: apply the plan entries in order. -/
def applyRewritingPlan (plan : List (String × String)) (g : List Triple) : List Triple :=
  plan.foldl (fun acc e => substObj e.1 e.2 acc) g

/-- `to_remove`: document objects whose identity is a key of the alias map. -/
def collateToRemove (docIds : List String) (aliases : List (String × String)) : List String :=
  docIds.filter (fun i => decide (hasKey aliases i))

/-- `rewriting_plan`: for each removed object whose alias differs from its own
identity, the pair (old identity, alias). -/
def collateRewritingPlan (docIds : List String) (aliases : List (String × String)) :
    List (String × String) :=
  (collateToRemove docIds aliases).filterMap (fun i =>
    match mapLookup aliases i with
    | some a => if a = i then none else some (i, a)
    | none => none)

/-- The cumulative effect of the plan on a single statement. -/
def rewriteTriple (plan : List (String × String)) (t : Triple) : Triple :=
  plan.foldl (fun t' e => if t'.obj = e.1 then Triple.mk t'.subj t'.pred e.2 else t') t

theorem map_rewriteTriple_nil (g : List Triple) : g.map (rewriteTriple []) = g := by
  induction g with
  | nil => rfl
  | cons t g ih =>
    simp only [List.map_cons, ih]
    rfl

theorem applyRewritingPlan_eq_map (plan : List (String × String)) (g : List Triple) :
    applyRewritingPlan plan g = g.map (rewriteTriple plan) := by
  induction plan generalizing g with
  | nil =>
    simp only [applyRewritingPlan, List.foldl_nil]
    exact (map_rewriteTriple_nil g).symm
  | cons e plan ih =>
    simp only [applyRewritingPlan, List.foldl_cons] at ih ⊢
    rw [ih, substObj, List.map_map]
    rfl

theorem rewriteTriple_subj_pred (plan : List (String × String)) (t : Triple) :
    (rewriteTriple plan t).subj = t.subj ∧ (rewriteTriple plan t).pred = t.pred := by
  induction plan generalizing t with
  | nil => exact ⟨rfl, rfl⟩
  | cons e plan ih =>
    simp only [rewriteTriple, List.foldl_cons] at ih ⊢
    by_cases hm : t.obj = e.1
    · rw [if_pos hm]
      exact ih ⟨t.subj, t.pred, e.2⟩
    · rw [if_neg hm]
      exact ih t

theorem rewriteTriple_obj_cases (plan : List (String × String)) (t : Triple) :
    (rewriteTriple plan t).obj = t.obj ∨ (rewriteTriple plan t).obj ∈ plan.map Prod.snd := by
  induction plan generalizing t with
  | nil => exact Or.inl rfl
  | cons e plan ih =>
    simp only [rewriteTriple, List.foldl_cons] at ih ⊢
    by_cases hm : t.obj = e.1
    · rw [if_pos hm]
      rcases ih ⟨t.subj, t.pred, e.2⟩ with h | h
      · exact Or.inr (h ▸ List.mem_cons_self _ _)
      · exact Or.inr (List.mem_cons_of_mem _ h)
    · rw [if_neg hm]
      rcases ih t with h | h
      · exact Or.inl h
      · exact Or.inr (List.mem_cons_of_mem _ h)

theorem rewriteTriple_id_of_no_key (plan : List (String × String)) (t : Triple)
    (h : ∀ e ∈ plan, t.obj ≠ e.1) : rewriteTriple plan t = t := by
  induction plan with
  | nil => rfl
  | cons e plan ih =>
    simp only [rewriteTriple, List.foldl_cons,
      if_neg (h e (List.mem_cons_self e plan))] at ih ⊢
    exact ih (fun e' he' => h e' (List.mem_cons_of_mem e he'))

theorem rewriteTriple_obj_no_key (plan : List (String × String)) (t : Triple)
    (hnc : ∀ e ∈ plan, ∀ e' ∈ plan, e.2 ≠ e'.1) :
    ∀ e0 ∈ plan, (rewriteTriple plan t).obj ≠ e0.1 := by
  induction plan generalizing t with
  | nil => exact fun e0 he0 => absurd he0 (List.not_mem_nil e0)
  | cons e plan ih =>
    intro e0 he0
    by_cases hm : t.obj = e.1
    · have hstep : rewriteTriple (e :: plan) t = rewriteTriple plan ⟨t.subj, t.pred, e.2⟩ := by
        simp [rewriteTriple, hm]
      rw [hstep, rewriteTriple_id_of_no_key plan ⟨t.subj, t.pred, e.2⟩
        (fun e' he' => hnc e (List.mem_cons_self e plan) e' (List.mem_cons_of_mem e he'))]
      exact hnc e (List.mem_cons_self e plan) e0 he0
    · have hstep : rewriteTriple (e :: plan) t = rewriteTriple plan t := by
        simp [rewriteTriple, hm]
      rw [hstep]
      rcases List.mem_cons.mp he0 with rfl | he0'
      · rcases rewriteTriple_obj_cases plan t with h | h
        · rw [h]
          exact hm
        · obtain ⟨e', he', hval⟩ := List.mem_map.mp h
          exact hval ▸ hnc e' (List.mem_cons_of_mem e0 he') e0 (List.mem_cons_self e0 plan)
      · exact ih t
          (fun a ha b hb =>
            hnc a (List.mem_cons_of_mem e ha) b (List.mem_cons_of_mem e hb)) e0 he0'

/-- C6 counterexample: (i) a placeholder whose alias equals its own identity
(`aliases["I"] = "I"`) is removed from the document but excluded from the
rewriting plan, so the statement `(S, P, I)` survives with its object equal
to a removed identity; (ii) with a chained plan `[("B","C"), ("A","B")]`
(both `A` and `B` removed), the statement `(S, P, A)` is rewritten to
`(S, P, B)`, whose object is again a removed identity. -/
theorem collate_rewrite_cex :
    ("I" ∈ collateToRemove ["I"] [("I", "I")]
      ∧ applyRewritingPlan (collateRewritingPlan ["I"] [("I", "I")])
          [Triple.mk "S" "P" "I"] = [Triple.mk "S" "P" "I"])
    ∧ ("B" ∈ collateToRemove ["B", "A"] [("A", "B"), ("B", "C")]
      ∧ applyRewritingPlan (collateRewritingPlan ["B", "A"] [("A", "B"), ("B", "C")])
          [Triple.mk "S" "P" "A"] = [Triple.mk "S" "P" "B"]) := by decide

/-- C6 (amended): provided no alias target of the rewriting plan is itself an
old identity of the plan, applying the plan rewrites the graph pointwise
(each output statement is an input statement with only its object possibly
substituted), subject and predicate positions are untouched, and no statement
of the output graph has an object term equal to any old identity of the plan
(the removed placeholders whose alias differs from their own identity). -/
theorem collate_rewrite_inv (docIds : List String) (aliases : List (String × String))
    (g : List Triple)
    (hnc : ∀ e ∈ collateRewritingPlan docIds aliases,
      ∀ e' ∈ collateRewritingPlan docIds aliases, e.2 ≠ e'.1) :
    applyRewritingPlan (collateRewritingPlan docIds aliases) g
        = g.map (rewriteTriple (collateRewritingPlan docIds aliases))
    ∧ (∀ t : Triple,
        (rewriteTriple (collateRewritingPlan docIds aliases) t).subj = t.subj
        ∧ (rewriteTriple (collateRewritingPlan docIds aliases) t).pred = t.pred)
    ∧ (∀ t ∈ applyRewritingPlan (collateRewritingPlan docIds aliases) g,
        ∀ e ∈ collateRewritingPlan docIds aliases, t.obj ≠ e.1) := by
  refine ⟨applyRewritingPlan_eq_map _ g, fun t => rewriteTriple_subj_pred _ t, ?_⟩
  intro t ht e he
  rw [applyRewritingPlan_eq_map] at ht
  obtain ⟨t0, _, rfl⟩ := List.mem_map.mp ht
  exact rewriteTriple_obj_no_key _ t0 hnc e he

/-- Witness for C6 (amended) on a one-placeholder document: the graph
`[(S, P, X)]` with plan `X → Y` is rewritten pointwise. -/
theorem collate_rewrite_inv_witness :
    applyRewritingPlan (collateRewritingPlan ["X"] [("X", "Y")]) [Triple.mk "S" "P" "X"]
      = [Triple.mk "S" "P" "X"].map (rewriteTriple (collateRewritingPlan ["X"] [("X", "Y")])) :=
  (collate_rewrite_inv ["X"] [("X", "Y")] [Triple.mk "S" "P" "X"] (by decide)).1

/-- Error codes of the structured-repository client (`sbol2.SBOLError`):
the not-found code and everything else. -/
inductive SBOLErrorCode where
  | notFound
  | other (n : Nat)
deriving DecidableEq

/-- Outcome of a structured-repository pull (`sbh_source.pull`). -/
inductive PullOutcome where
  | success
  | failure (code : SBOLErrorCode)
deriving DecidableEq

/-- Outcome of the raw `urllib` fetch from the legacy registry endpoint:
the decoded, stripped text, or an `IOError`. -/
inductive FetchOutcome where
  | text (s : String)
  | ioError
deriving DecidableEq

/-- A write to an on-disk cache file: the merged SBOL2 cache document, or an
append of fasta entries (accession, captured sequence). -/
inductive CacheWrite where
  | sbolCache
  | fastaCache (entries : List (String × String))
deriving DecidableEq

/-- `sbol_uri_to_accession` lifted to Lean `String`s. -/
def sbol_uri_to_accession_str (uri pfx : String) : String :=
  String.mk (sbol_uri_to_accession uri.data pfx.data)

/-- The code an `sbol2.SBOLError` would propagate with: `none` when the pull
succeeds or fails with the not-found code (handled locally), `some c` when it
fails with any other code `c` (re-raised). -/
def pullFatalCode : PullOutcome → Option SBOLErrorCode
  | .success => none
  | .failure c => if c = SBOLErrorCode.notFound then none else some c

/-- Per-URI loop state of `retrieve_igem_parts`: the retrieved URIs, the
SynBioHub and registry-fallback counts, and the accumulated fasta entries. -/
structure IgemLoopResult where
  retrieved : List String
  sbolCount : Nat
  fastaCount : Nat
  fasta : List (String × String)
deriving DecidableEq

/-- The per-URI loop of `retrieve_igem_parts`: pull from SynBioHub; on the
not-found error code fall back to the raw registry fetch (5-second timeout)
and accept the text only when the unambiguous-DNA check passes; on an
`IOError` or a failed DNA check skip the URI; re-raise any other error code.
`pull`, `fetch` and `dna` abstract the network clients and the external DNA
check. -/
def retrieve_igem_go (pull : String → PullOutcome) (fetch : String → Nat → FetchOutcome)
    (dna : String → Bool) : List String → Except SBOLErrorCode IgemLoopResult
  | [] => .ok ⟨[], 0, 0, []⟩
  | i :: rest =>
    match pull i with
    | .success =>
      (retrieve_igem_go pull fetch dna rest).map
        (fun st => ⟨i :: st.retrieved, st.sbolCount + 1, st.fastaCount, st.fasta⟩)
    | .failure c =>
      if c = SBOLErrorCode.notFound then
        match fetch i 5 with
        | .text s =>
          if dna s then
            (retrieve_igem_go pull fetch dna rest).map
              (fun st => ⟨i :: st.retrieved, st.sbolCount, st.fastaCount + 1,
                (sbol_uri_to_accession_str i (String.mk iGEM_SOURCE_PFX), s) :: st.fasta⟩)
          else retrieve_igem_go pull fetch dna rest
        | .ioError => retrieve_igem_go pull fetch dna rest
      else .error c

/-- `retrieve_igem_parts`: run the per-URI loop, then — only after the loop
has completed — write the SBOL2 cache (if any SynBioHub pull succeeded) and
append to the fasta cache (if any registry fallback succeeded).  A re-raised
error propagates before any cache write happens. -/
def retrieve_igem_parts (pull : String → PullOutcome) (fetch : String → Nat → FetchOutcome)
    (dna : String → Bool) (ids : List String) :
    Except SBOLErrorCode (List String) × List CacheWrite :=
  match retrieve_igem_go pull fetch dna ids with
  | .error c => (.error c, [])
  | .ok st =>
    (.ok st.retrieved,
      (if st.sbolCount > 0 then [CacheWrite.sbolCache] else [])
        ++ (if st.fastaCount > 0 then [CacheWrite.fastaCache st.fasta] else []))

/-- Whether `retrieve_igem_parts` counts a URI as retrieved: the pull
succeeded, or it failed with not-found and the raw fallback text passed the
DNA check. -/
def igemAccepts (pull : String → PullOutcome) (fetch : String → Nat → FetchOutcome)
    (dna : String → Bool) (i : String) : Bool :=
  match pull i with
  | .success => true
  | .failure c =>
    if c = SBOLErrorCode.notFound then
      match fetch i 5 with
      | .text s => dna s
      | .ioError => false
    else false

/-- The per-URI loop of `retrieve_synbiohub_parts`: pull each URI, skip on
the not-found code, re-raise any other error code.  The per-host `PartShop`
instantiation is connection plumbing folded into `pull`. -/
def retrieve_synbiohub_go (pull : String → PullOutcome) :
    List String → Except SBOLErrorCode (List String)
  | [] => .ok []
  | u :: rest =>
    match pull u with
    | .success => (retrieve_synbiohub_go pull rest).map (u :: ·)
    | .failure c =>
      if c = SBOLErrorCode.notFound then retrieve_synbiohub_go pull rest
      else .error c

/-- `retrieve_synbiohub_parts`: run the loop, then — only after it has
completed — write the merged cache document if anything was retrieved. -/
def retrieve_synbiohub_parts (pull : String → PullOutcome) (ids : List String) :
    Except SBOLErrorCode (List String) × List CacheWrite :=
  match retrieve_synbiohub_go pull ids with
  | .error c => (.error c, [])
  | .ok l => (.ok l, if l.length > 0 then [CacheWrite.sbolCache] else [])

theorem retrieve_igem_go_ok (pull : String → PullOutcome) (fetch : String → Nat → FetchOutcome)
    (dna : String → Bool) (ids : List String)
    (h : ∀ i ∈ ids, pullFatalCode (pull i) = none) :
    ∃ st, retrieve_igem_go pull fetch dna ids = .ok st
      ∧ st.retrieved = ids.filter (igemAccepts pull fetch dna) := by
  induction ids with
  | nil => exact ⟨⟨[], 0, 0, []⟩, rfl, rfl⟩
  | cons i rest ih =>
    obtain ⟨st, hgo, hret⟩ := ih (fun j hj => h j (List.mem_cons_of_mem i hj))
    have hi := h i (List.mem_cons_self i rest)
    cases hpull : pull i with
    | success =>
      refine ⟨⟨i :: st.retrieved, st.sbolCount + 1, st.fastaCount, st.fasta⟩, ?_, ?_⟩
      · simp [retrieve_igem_go, hpull, hgo, Except.map]
      · simp [hret, List.filter_cons, igemAccepts, hpull]
    | failure c =>
      have hc : c = SBOLErrorCode.notFound := by
        rw [hpull] at hi
        simp only [pullFatalCode] at hi
        by_cases h' : c = SBOLErrorCode.notFound
        · exact h'
        · rw [if_neg h'] at hi
          exact absurd hi (by simp)
      subst hc
      cases hfetch : fetch i 5 with
      | text s =>
        cases hdna : dna s with
        | true =>
          refine ⟨⟨i :: st.retrieved, st.sbolCount, st.fastaCount + 1,
            (sbol_uri_to_accession_str i (String.mk iGEM_SOURCE_PFX), s) :: st.fasta⟩, ?_, ?_⟩
          · simp [retrieve_igem_go, hpull, hfetch, hdna, hgo, Except.map]
          · simp [hret, List.filter_cons, igemAccepts, hpull, hfetch, hdna]
        | false =>
          refine ⟨st, ?_, ?_⟩
          · simp [retrieve_igem_go, hpull, hfetch, hdna, hgo, Except.map]
          · simp [hret, List.filter_cons, igemAccepts, hpull, hfetch, hdna]
      | ioError =>
        refine ⟨st, ?_, ?_⟩
        · simp [retrieve_igem_go, hpull, hfetch, hgo]
        · simp [hret, List.filter_cons, igemAccepts, hpull, hfetch]

theorem retrieve_igem_go_error (pull : String → PullOutcome) (fetch : String → Nat → FetchOutcome)
    (dna : String → Bool) (pre : List String) (i : String) (post : List String)
    (c : SBOLErrorCode) (hpre : ∀ j ∈ pre, pullFatalCode (pull j) = none)
    (hi : pull i = .failure c) (hc : c ≠ SBOLErrorCode.notFound) :
    retrieve_igem_go pull fetch dna (pre ++ i :: post) = .error c := by
  induction pre with
  | nil =>
    simp [retrieve_igem_go, hi, hc]
  | cons j pre ih =>
    have hrec := ih (fun x hx => hpre x (List.mem_cons_of_mem j hx))
    have hj := hpre j (List.mem_cons_self j pre)
    cases hpull : pull j with
    | success =>
      simp [retrieve_igem_go, hpull, hrec, Except.map]
    | failure cj =>
      have hcj : cj = SBOLErrorCode.notFound := by
        rw [hpull] at hj
        simp only [pullFatalCode] at hj
        by_cases h' : cj = SBOLErrorCode.notFound
        · exact h'
        · rw [if_neg h'] at hj
          exact absurd hj (by simp)
      subst hcj
      cases hfetch : fetch j 5 with
      | text s =>
        cases hdna : dna s with
        | true => simp [retrieve_igem_go, hpull, hfetch, hdna, hrec, Except.map]
        | false => simp [retrieve_igem_go, hpull, hfetch, hdna, hrec, Except.map]
      | ioError => simp [retrieve_igem_go, hpull, hfetch, hrec, Except.map]

/-- C7: when every pull outcome in the list is non-fatal (success or the
not-found code), `retrieve_igem_parts` returns exactly the URIs accepted by
the pull/fallback/DNA-check pipeline (`igemAccepts`: fallback fetched with
the bounded 5-second timeout only on not-found, its text accepted only when
the DNA check passes, otherwise the URI is dropped); and as soon as some URI
fails with an error code other than not-found — all URIs before it being
non-fatal — that code is re-raised to the caller. -/
theorem retrieve_igem_error_handling (pull : String → PullOutcome)
    (fetch : String → Nat → FetchOutcome) (dna : String → Bool) (ids : List String) :
    ((∀ i ∈ ids, pullFatalCode (pull i) = none) →
      (retrieve_igem_parts pull fetch dna ids).1
        = .ok (ids.filter (igemAccepts pull fetch dna)))
    ∧ (∀ pre i post c, ids = pre ++ i :: post →
        (∀ j ∈ pre, pullFatalCode (pull j) = none) →
        pull i = .failure c → c ≠ SBOLErrorCode.notFound →
        (retrieve_igem_parts pull fetch dna ids).1 = .error c) := by
  constructor
  · intro h
    obtain ⟨st, hgo, hret⟩ := retrieve_igem_go_ok pull fetch dna ids h
    simp [retrieve_igem_parts, hgo, hret]
  · intro pre i post c hids hpre hpull hc
    subst hids
    have hgo := retrieve_igem_go_error pull fetch dna pre i post c hpre hpull hc
    simp [retrieve_igem_parts, hgo]

/-- Witness for C7: a pull environment where `A` succeeds, `B` is not found
but the registry fallback returns DNA, `C` is not found and the fallback
returns an HTML page (rejected), `D` is not found and the fallback raises
`IOError` — giving `[A, B]` retrieved; and a pool where `E` fails with a
non-not-found code, which is re-raised. -/
theorem retrieve_igem_error_handling_witness :
    ((retrieve_igem_parts
        (fun i => if i = "E" then PullOutcome.failure (SBOLErrorCode.other 5)
          else if i = "A" then PullOutcome.success
          else PullOutcome.failure SBOLErrorCode.notFound)
        (fun i _ => if i = "B" then FetchOutcome.text "ATGC"
          else if i = "C" then FetchOutcome.text "<html>not found</html>"
          else FetchOutcome.ioError)
        (fun s => decide (s = "ATGC")) ["A", "B", "C", "D"]).1
      = .ok (["A", "B", "C", "D"].filter (igemAccepts
          (fun i => if i = "E" then PullOutcome.failure (SBOLErrorCode.other 5)
            else if i = "A" then PullOutcome.success
            else PullOutcome.failure SBOLErrorCode.notFound)
          (fun i _ => if i = "B" then FetchOutcome.text "ATGC"
            else if i = "C" then FetchOutcome.text "<html>not found</html>"
            else FetchOutcome.ioError)
          (fun s => decide (s = "ATGC")))))
    ∧ ((retrieve_igem_parts
        (fun i => if i = "E" then PullOutcome.failure (SBOLErrorCode.other 5)
          else if i = "A" then PullOutcome.success
          else PullOutcome.failure SBOLErrorCode.notFound)
        (fun i _ => if i = "B" then FetchOutcome.text "ATGC"
          else if i = "C" then FetchOutcome.text "<html>not found</html>"
          else FetchOutcome.ioError)
        (fun s => decide (s = "ATGC")) ["A", "E", "B"]).1
      = .error (SBOLErrorCode.other 5)) :=
  ⟨(retrieve_igem_error_handling _ _ _ ["A", "B", "C", "D"]).1 (by decide),
   (retrieve_igem_error_handling _ _ _ ["A", "E", "B"]).2 ["A"] "E" ["B"]
     (SBOLErrorCode.other 5) rfl (by decide) (by decide) (by decide)⟩

/-- A GenBank record as parsed from the batched response; `rid` is `r.id`. -/
structure GenBankRecord where
  rid : List Char
deriving DecidableEq

/-- The comma-joined accession string handed to the batched `Entrez.efetch`. -/
def genbankIdString (ids : List (List Char)) : List Char :=
  List.intercalate [','] (ids.map (fun i => sbol_uri_to_accession i NCBI_PFX))

/-- `retrieve_genbank_accessions`: strip each URI to its accession, issue one
batched fetch (abstracted by `fetch`, returning the parsed records or an
`HTTPError`), append all retrieved records to the GenBank cache and return
their accessions converted back to SBOL URIs; on `HTTPError` catch it and
return the empty list.  The second component lists the cache appends
performed. -/
def retrieve_genbank_accessions (fetch : List Char → Except Unit (List GenBankRecord))
    (ids : List (List Char)) : List (List Char) × List (List GenBankRecord) :=
  match fetch (genbankIdString ids) with
  | .error _ => ([], [])
  | .ok recs => (recs.map (fun r => accession_to_sbol_uri r.rid NCBI_PFX), [recs])

/-- C8: when the batched remote fetch fails with a transport failure
(`HTTPError`), `retrieve_genbank_accessions` returns the empty list — the
whole batch is treated as failed, nothing is written to the cache, no retry
happens and no exception escapes (the model is a total function). -/
theorem retrieve_genbank_httperror (fetch : List Char → Except Unit (List GenBankRecord))
    (ids : List (List Char)) (h : fetch (genbankIdString ids) = .error ()) :
    retrieve_genbank_accessions fetch ids = ([], []) := by
  unfold retrieve_genbank_accessions
  rw [h]

/-- Witness for C8: a fetch that always raises `HTTPError` yields `([], [])`
on a concrete batch. -/
theorem retrieve_genbank_httperror_witness :
    retrieve_genbank_accessions (fun _ => .error ())
      [pys "https://www.ncbi.nlm.nih.gov/nuccore/AB1.1"] = ([], []) :=
  retrieve_genbank_httperror (fun _ => .error ())
    [pys "https://www.ncbi.nlm.nih.gov/nuccore/AB1.1"] rfl

/-- C10: both per-URI retrievers write their cache files only after their
loop has completed, so a call that re-raises a non-not-found error performs
no cache write at all: URIs pulled before the error are not persisted and the
on-disk cache state is unchanged by that call. -/
theorem retrievers_no_cache_write_on_error
    (pull : String → PullOutcome) (fetch : String → Nat → FetchOutcome)
    (dna : String → Bool) (ids : List String) (c : SBOLErrorCode) :
    ((retrieve_igem_parts pull fetch dna ids).1 = .error c →
      (retrieve_igem_parts pull fetch dna ids).2 = [])
    ∧ ((retrieve_synbiohub_parts pull ids).1 = .error c →
      (retrieve_synbiohub_parts pull ids).2 = []) := by
  constructor
  · intro h
    cases hgo : retrieve_igem_go pull fetch dna ids with
    | error c2 => simp [retrieve_igem_parts, hgo]
    | ok st =>
      rw [show (retrieve_igem_parts pull fetch dna ids).1
          = .ok st.retrieved from by simp [retrieve_igem_parts, hgo]] at h
      exact absurd h (by simp)
  · intro h
    cases hgo : retrieve_synbiohub_go pull ids with
    | error c2 => simp [retrieve_synbiohub_parts, hgo]
    | ok l =>
      rw [show (retrieve_synbiohub_parts pull ids).1
          = .ok l from by simp [retrieve_synbiohub_parts, hgo]] at h
      exact absurd h (by simp)

/-- Witness for C10: with every pull failing on a fatal code, both retrievers
report the error and write nothing. -/
theorem retrievers_no_cache_write_on_error_witness :
    ((retrieve_igem_parts (fun _ => PullOutcome.failure (SBOLErrorCode.other 7))
        (fun _ _ => FetchOutcome.ioError) (fun _ => false) ["u1", "u2"]).2 = [])
    ∧ ((retrieve_synbiohub_parts (fun _ => PullOutcome.failure (SBOLErrorCode.other 7))
        ["u1", "u2"]).2 = []) :=
  ⟨(retrievers_no_cache_write_on_error (fun _ => PullOutcome.failure (SBOLErrorCode.other 7))
      (fun _ _ => FetchOutcome.ioError) (fun _ => false) ["u1", "u2"]
      (SBOLErrorCode.other 7)).1 rfl,
   (retrievers_no_cache_write_on_error (fun _ => PullOutcome.failure (SBOLErrorCode.other 7))
      (fun _ _ => FetchOutcome.ioError) (fun _ => false) ["u1", "u2"]
      (SBOLErrorCode.other 7)).2 rfl⟩
